import Mathlib

/-!
Verification development for the GDeflate wrapper library.

The repository exposes a C surface (`gdeflate_get_uncompressed_size`,
`gdeflate_decompress`, `gdeflate_compress`, `gdeflate_get_compress_bound`,
in `src/GDeflate/GDeflateWrapper/wrapper.cpp` / `wrapper.h`) that forwards
into a tile-oriented compression engine.  The wrapper sources are embedded
directly; the engine behind it (`GDeflate::Compress`, `GDeflate::Decompress`,
`GDeflate::TileStream`) is not part of the given sources and is modelled from
the specification: a fixed-size header (magic/version tag, declared
uncompressed size, tile size), a tile table of `(compressed_offset,
compressed_length, uncompressed_length)` entries, and independently decodable
tiles written into disjoint slices of the output buffer.

Buffers are `List Nat` (byte lists); machine integers are `Nat` with header
fields stored as little-endian byte sequences of fixed width.  The opaque
single-tile codec ("TileCodec" in the spec) is a parameter, with its
documented call contract expressed as explicit `Prop`s.
-/

/-- Modelled from the spec: the fixed stream-header size
(`sizeof(GDeflate::TileStream)` in the wrapper): a 4-byte magic/version tag,
an 8-byte declared uncompressed size, and an 8-byte tile size. -/
def headerSize : Nat := 20

/-- Modelled from the spec: size in bytes of one tile-table entry, three
8-byte fields `(compressed_offset, compressed_length, uncompressed_length)`. -/
def entrySize : Nat := 24

/-- Modelled from the spec: the fixed engine tile size (64 KiB), the uniform
uncompressed size of every non-final tile. -/
def kTileSize : Nat := 65536

/-- Modelled from the spec: the supported magic/version tag value. -/
def kMagic : Nat := 0x00464447

/-- Little-endian encoding of `n` into exactly `k` bytes (truncating above
`256 ^ k`). -/
def toLE : Nat → Nat → List Nat
  | 0, _ => []
  | k + 1, n => n % 256 :: toLE k (n / 256)

/-- Little-endian value of a byte list. -/
def fromLE : List Nat → Nat
  | [] => 0
  | b :: bs => b + 256 * fromLE bs

/-- Read the `k`-byte little-endian field starting at byte offset `off`. -/
def readLE (bytes : List Nat) (off k : Nat) : Nat :=
  fromLE ((bytes.drop off).take k)

/-- Modelled from the spec: the opaque single-tile compress/decompress
primitive ("TileCodec").  `encode level flags block` produces a compressed
block; `decode block expectedLen` reconstructs the original block of known
uncompressed size; `bound n` is the per-tile worst-case expansion used in the
bound arithmetic. -/
structure TileCodec where
  encode : Nat → Nat → List Nat → List Nat
  decode : List Nat → Nat → Option (List Nat)
  bound : Nat → Nat

/-- TileCodec contract: decoding an encoded block at its original length
reconstructs the block. -/
def EncodeDecode (c : TileCodec) : Prop :=
  ∀ lv fl b, c.decode (c.encode lv fl b) b.length = some b

/-- TileCodec contract: a successful decode produces exactly the expected
number of bytes. -/
def DecodeLen (c : TileCodec) : Prop :=
  ∀ s n b, c.decode s n = some b → b.length = n

/-- TileCodec contract: encoded blocks respect the codec's worst-case bound. -/
def EncodeBound (c : TileCodec) : Prop :=
  ∀ lv fl b, (c.encode lv fl b).length ≤ c.bound b.length

/-- TileCodec contract: the worst-case bound is monotone in the block size. -/
def BoundMono (c : TileCodec) : Prop :=
  ∀ m n, m ≤ n → c.bound m ≤ c.bound n

/-- The trivial store-only codec (the spec's suggested test stub). -/
def storeCodec : TileCodec where
  encode := fun _ _ b => b
  decode := fun s n => if s.length = n then some s else none
  bound := fun n => n

/-- Modelled from the spec: the error kinds of the engine. -/
inductive StreamErr where
  | Truncated
  | InvalidFormat
  | OutputTooSmall
  | TileCodecFailure
  | InvalidArgument
deriving DecidableEq

/-- Modelled from the spec: the parsed header (the derived tile count is a
function of the declared uncompressed size, so only the size is stored). -/
structure StreamHeader where
  uncompressedSize : Nat
deriving DecidableEq

/-- Modelled from the spec: derived tile count
`ceil(uncompressed_size / tile_size)`, minimum 1 even for empty input. -/
def tileCountOf (us : Nat) : Nat :=
  if us = 0 then 1 else (us + kTileSize - 1) / kTileSize

/-- Modelled from the spec: `StreamFormat.parse_header`.  Fails with
`Truncated` if fewer than `headerSize` bytes are available, with
`InvalidFormat` if the magic/version tag or tile size does not match the
supported value or the tile table would extend past the buffer. -/
def parse_header (bytes : List Nat) : Except StreamErr StreamHeader :=
  if bytes.length < headerSize then .error .Truncated
  else if readLE bytes 0 4 ≠ kMagic then .error .InvalidFormat
  else if readLE bytes 12 8 ≠ kTileSize then .error .InvalidFormat
  else if bytes.length < headerSize + entrySize * tileCountOf (readLE bytes 4 8) then
    .error .InvalidFormat
  else .ok ⟨readLE bytes 4 8⟩

/-- Byte offset at which the tile-data region starts, after the header and a
`tc`-entry tile table. -/
def tileDataStart (tc : Nat) : Nat := headerSize + entrySize * tc

/-- Read tile-table entry `i`:
`(compressed_offset, compressed_length, uncompressed_length)`. -/
def readEntry (bytes : List Nat) (i : Nat) : Nat × Nat × Nat :=
  (readLE bytes (headerSize + entrySize * i) 8,
   readLE bytes (headerSize + entrySize * i + 8) 8,
   readLE bytes (headerSize + entrySize * i + 16) 8)

/-- Overwrite `out` starting at position `pos` with the bytes of `blk`,
keeping the length of `out` (writes past the end are dropped). -/
def writeAt : List Nat → Nat → List Nat → List Nat
  | [], _, _ => []
  | out, 0, [] => out
  | _ :: os, 0, b :: bs => b :: writeAt os 0 bs
  | o :: os, p + 1, blk => o :: writeAt os p blk

/-- Modelled from the spec: one decompression job.  Locate the compressed
slice of tile `i` via its table entry and decode it, expecting exactly the
declared uncompressed length. -/
def decodeTile (c : TileCodec) (input : List Nat) (tc i : Nat) : Option (List Nat) :=
  c.decode ((input.drop (tileDataStart tc + (readEntry input i).1)).take (readEntry input i).2.1)
    (readEntry input i).2.2

/-- Process one tile: on success write the decoded block at its destination
offset `tile_size * i` (a pure function of the tile index); on decode failure
the whole call fails, with already-performed writes left in place. -/
def stepTile (c : TileCodec) (input : List Nat) (tc : Nat) (acc : Bool × List Nat) (i : Nat) :
    Bool × List Nat :=
  if acc.1 then
    match decodeTile c input tc i with
    | none => (false, acc.2)
    | some blk => (true, writeAt acc.2 (kTileSize * i) blk)
  else acc

/-- Modelled from the spec: the order in which tile jobs complete.  With `0`
or `1` workers, tiles run sequentially in index order on the caller's thread;
with `w ≥ 2` workers, worker `k` handles tiles `k, k + w, k + 2w, …` and the
per-worker streams complete in an arbitrary interleaving (represented here by
worker-major order). -/
def schedule (w tc : Nat) : List Nat :=
  if w ≤ 1 then List.range tc
  else ((List.range w).map fun k => (List.range tc).filter fun i => i % w == k).flatten

/-- Modelled from the spec: `GDeflate::Decompress`.  Checks that the header
parses and the output buffer is at least the declared uncompressed size
before any tile work begins (returning failure with the output untouched
otherwise), then decodes every tile exactly once in the schedule's order,
each writing its private slice of the output. -/
def GDeflate.Decompress (c : TileCodec) (output : List Nat) (input : List Nat)
    (numWorkers : Nat) : Bool × List Nat :=
  match parse_header input with
  | .error _ => (false, output)
  | .ok h =>
    if output.length < h.uncompressedSize then (false, output)
    else
      (schedule numWorkers (tileCountOf h.uncompressedSize)).foldl
        (stepTile c input (tileCountOf h.uncompressedSize)) (true, output)

/-- The tiles of an input buffer: `tileCountOf` slices of up to `kTileSize`
bytes each (one empty tile for empty input). -/
def tileSlices (input : List Nat) : List (List Nat) :=
  (List.range (tileCountOf input.length)).map fun i =>
    (input.drop (kTileSize * i)).take kTileSize

/-- Build the tile table from the compressed blocks (paired with their
uncompressed lengths): offsets are the running sum of compressed lengths,
so tiles are laid out contiguously with no padding. -/
def mkEntries : Nat → List (List Nat × Nat) → List (Nat × Nat × Nat)
  | _, [] => []
  | pos, (enc, ul) :: rest => (pos, enc.length, ul) :: mkEntries (pos + enc.length) rest

/-- Serialize one tile-table entry as three 8-byte little-endian fields. -/
def encEntry (e : Nat × Nat × Nat) : List Nat :=
  toLE 8 e.1 ++ toLE 8 e.2.1 ++ toLE 8 e.2.2

/-- The full compressed stream for an input: header, tile table, tile data. -/
def compressedStream (c : TileCodec) (input : List Nat) (level flags : Nat) : List Nat :=
  let tiles := tileSlices input
  let encs := tiles.map (c.encode level flags)
  let entries := mkEntries 0 (encs.zip (tiles.map List.length))
  toLE 4 kMagic ++ toLE 8 input.length ++ toLE 8 kTileSize ++
    (entries.map encEntry).flatten ++ encs.flatten

/-- Tile `i` of an input buffer (empty when `i` is past the end). -/
def tileOf (input : List Nat) (i : Nat) : List Nat :=
  (input.drop (kTileSize * i)).take kTileSize

/-- The compressed blocks of all tiles of an input. -/
def encsOf (c : TileCodec) (input : List Nat) (level flags : Nat) : List (List Nat) :=
  (tileSlices input).map (c.encode level flags)

/-- Offset of block `i` inside the tile-data region: the running sum of the
compressed lengths of the blocks before it. -/
def offsetOf (encs : List (List Nat)) (i : Nat) : Nat :=
  ((encs.take i).map List.length).sum

/-- Modelled from the spec: `GDeflate::Compress`.  Rejects unrecognized flag
bits with `InvalidArgument`; fails with `OutputTooSmall` if a tile exceeds
its worst-case bound estimate or the assembled stream exceeds the output
capacity; otherwise emits the full stream. -/
def GDeflate.Compress (c : TileCodec) (outputCap : Nat) (input : List Nat)
    (level flags : Nat) : Except StreamErr (List Nat) :=
  if 2 ≤ flags then .error .InvalidArgument
  else if ((tileSlices input).zip ((tileSlices input).map (c.encode level flags))).any
      (fun p => decide (c.bound p.1.length < p.2.length)) then
    .error .OutputTooSmall
  else if outputCap < (compressedStream c input level flags).length then
    .error .OutputTooSmall
  else .ok (compressedStream c input level flags)

/-- Modelled from the spec: `GDeflate::TileStream::GetUncompressedSize` (the
engine header accessor called by the wrapper; not part of the given sources).
Reads the header's declared uncompressed-size field. -/
def TileStream.GetUncompressedSize (input : List Nat) : Nat := readLE input 4 8

/-- Embeds `gdeflate_get_uncompressed_size` from `wrapper.cpp`: if
`input_size < sizeof(GDeflate::TileStream)` it stores 0 and returns `false`;
otherwise it stores the header's declared uncompressed size and returns
`true`. -/
def gdeflate_get_uncompressed_size (input : List Nat) : Nat × Bool :=
  if input.length < headerSize then (0, false)
  else (TileStream.GetUncompressedSize input, true)

/-- Embeds `gdeflate_decompress` from `wrapper.cpp`: a direct forward to
`GDeflate::Decompress`. -/
def gdeflate_decompress (c : TileCodec) (output : List Nat) (input : List Nat)
    (numWorkers : Nat) : Bool × List Nat :=
  GDeflate.Decompress c output input numWorkers

/-- Embeds `gdeflate_compress` from `wrapper.cpp`: a direct forward to
`GDeflate::Compress`. -/
def gdeflate_compress (c : TileCodec) (outputCap : Nat) (input : List Nat)
    (level flags : Nat) : Except StreamErr (List Nat) :=
  GDeflate.Compress c outputCap input level flags

/-- Modelled from the spec: `gdeflate_get_compress_bound` (declared in
`wrapper.h`, implementation not among the given sources):
`header size + tile_count * (per-tile worst-case expansion +
per-tile-table-entry size)`. -/
def gdeflate_get_compress_bound (c : TileCodec) (size : Nat) : Nat :=
  headerSize + tileCountOf size * (c.bound kTileSize + entrySize)

/-! ### Little-endian field lemmas -/

@[simp] theorem toLE_length (k n : Nat) : (toLE k n).length = k := by
  induction k generalizing n with
  | zero => rfl
  | succ k ih => simp [toLE, ih]

theorem fromLE_toLE (k n : Nat) : fromLE (toLE k n) = n % 256 ^ k := by
  induction k generalizing n with
  | zero => simp [toLE, fromLE, Nat.mod_one]
  | succ k ih =>
    simp only [toLE, fromLE, ih]
    rw [Nat.pow_succ, Nat.mul_comm (256 ^ k) 256, Nat.mod_mul]

theorem fromLE_toLE_of_lt {k n : Nat} (h : n < 256 ^ k) : fromLE (toLE k n) = n := by
  rw [fromLE_toLE, Nat.mod_eq_of_lt h]

theorem readLE_append (l₁ l₂ : List Nat) (off k : Nat) :
    readLE (l₁ ++ l₂) (l₁.length + off) k = readLE l₂ off k := by
  simp [readLE, List.drop_append]

theorem readLE_toLE (k n : Nat) (rest : List Nat) :
    readLE (toLE k n ++ rest) 0 k = n % 256 ^ k := by
  rw [readLE, List.drop_zero, List.take_left' (toLE_length k n), fromLE_toLE]

/-! ### writeAt lemmas -/

@[simp] theorem writeAt_nil (p : Nat) (blk : List Nat) : writeAt [] p blk = [] := by
  cases p <;> cases blk <;> rfl

theorem writeAt_zero (out blk : List Nat) :
    writeAt out 0 blk = blk.take out.length ++ out.drop blk.length := by
  induction out generalizing blk with
  | nil => simp
  | cons o os ih =>
    cases blk with
    | nil => simp [writeAt]
    | cons b bs => simp [writeAt, ih]

theorem writeAt_zero_nil (out : List Nat) : writeAt out 0 [] = out := by
  cases out <;> rfl

@[simp] theorem writeAt_length (out : List Nat) (p : Nat) (blk : List Nat) :
    (writeAt out p blk).length = out.length := by
  induction out generalizing p blk with
  | nil => simp
  | cons o os ih =>
    cases p with
    | zero =>
      cases blk with
      | nil => rfl
      | cons b bs => simp [writeAt, ih]
    | succ q => simp [writeAt, ih]

theorem writeAt_append (x y : List Nat) (p : Nat) (blk : List Nat) :
    writeAt (x ++ y) (x.length + p) blk = x ++ writeAt y p blk := by
  induction x with
  | nil => simp
  | cons a x ih => simpa [writeAt, Nat.succ_add] using ih

theorem writeAt_comm (out : List Nat) (p₁ p₂ : Nat) (blk₁ blk₂ : List Nat)
    (h : p₁ + blk₁.length ≤ p₂) :
    writeAt (writeAt out p₂ blk₂) p₁ blk₁ = writeAt (writeAt out p₁ blk₁) p₂ blk₂ := by
  induction out generalizing p₁ p₂ blk₁ blk₂ with
  | nil => simp
  | cons o os ih =>
    cases p₁ with
    | zero =>
      cases blk₁ with
      | nil => rw [writeAt_zero_nil, writeAt_zero_nil]
      | cons b bs =>
        obtain ⟨q, rfl⟩ : ∃ q, p₂ = q + 1 := ⟨p₂ - 1, by simp at h; omega⟩
        simp only [writeAt]
        rw [ih]
        simp at h ⊢
        omega
    | succ q₁ =>
      obtain ⟨q₂, rfl⟩ : ∃ q₂, p₂ = q₂ + 1 := ⟨p₂ - 1, by omega⟩
      simp only [writeAt]
      rw [ih]
      omega

/-! ### Tile-count arithmetic -/

theorem tileCountOf_pos (us : Nat) : 0 < tileCountOf us := by
  unfold tileCountOf kTileSize
  split
  · omega
  · have h1 := Nat.div_add_mod (us + 65536 - 1) 65536
    have h2 := Nat.mod_lt (us + 65536 - 1) (show 0 < 65536 by omega)
    omega

theorem le_mul_tileCountOf (us : Nat) : us ≤ kTileSize * tileCountOf us := by
  unfold tileCountOf kTileSize
  split
  · omega
  · have h1 := Nat.div_add_mod (us + 65536 - 1) 65536
    have h2 := Nat.mod_lt (us + 65536 - 1) (show 0 < 65536 by omega)
    omega

theorem mul_le_of_lt_tileCountOf {us m : Nat} (h : m < tileCountOf us) :
    kTileSize * m ≤ us := by
  unfold tileCountOf kTileSize at *
  by_cases h0 : us = 0
  · simp [h0] at h
    omega
  · simp only [h0, if_false] at h
    have h1 := Nat.div_add_mod (us + 65536 - 1) 65536
    have h2 := Nat.mod_lt (us + 65536 - 1) (show 0 < 65536 by omega)
    have h3 : 65536 * m ≤ 65536 * ((us + 65536 - 1) / 65536 - 1) :=
      Nat.mul_le_mul_left _ (by omega)
    omega

/-! ### Tile slice lemmas -/

theorem tileSlices_eq (input : List Nat) :
    tileSlices input = (List.range (tileCountOf input.length)).map (tileOf input) := rfl

@[simp] theorem tileSlices_length (input : List Nat) :
    (tileSlices input).length = tileCountOf input.length := by
  simp [tileSlices]

theorem tileOf_length_le (input : List Nat) (i : Nat) : (tileOf input i).length ≤ kTileSize := by
  simp [tileOf]

theorem tileSlices_getD (input : List Nat) {i : Nat} (h : i < tileCountOf input.length) :
    (tileSlices input).getD i [] = tileOf input i := by
  rw [tileSlices_eq, List.getD_eq_getElem?_getD, List.getElem?_map, List.getElem?_range h]
  rfl

@[simp] theorem encsOf_length (c : TileCodec) (input : List Nat) (lv fl : Nat) :
    (encsOf c input lv fl).length = tileCountOf input.length := by
  simp [encsOf]

theorem encsOf_getD (c : TileCodec) (input : List Nat) (lv fl : Nat) {i : Nat}
    (h : i < tileCountOf input.length) :
    (encsOf c input lv fl).getD i [] = c.encode lv fl (tileOf input i) := by
  rw [encsOf, tileSlices_eq, List.getD_eq_getElem?_getD, List.map_map, List.getElem?_map,
    List.getElem?_range h]
  rfl

/-! ### Sum and offset lemmas -/

theorem sum_le_length_mul (l : List Nat) (M : Nat) (h : ∀ x ∈ l, x ≤ M) :
    l.sum ≤ l.length * M := by
  induction l with
  | nil => simp
  | cons x xs ih =>
    simp only [List.sum_cons, List.length_cons, Nat.succ_mul]
    have hx := h x (by simp)
    have hxs := ih fun y hy => h y (by simp [hy])
    omega

@[simp] theorem offsetOf_zero (encs : List (List Nat)) : offsetOf encs 0 = 0 := by
  simp [offsetOf]

@[simp] theorem offsetOf_nil (i : Nat) : offsetOf [] i = 0 := by
  simp [offsetOf]

theorem offsetOf_cons_succ (e : List Nat) (es : List (List Nat)) (j : Nat) :
    offsetOf (e :: es) (j + 1) = e.length + offsetOf es j := by
  simp [offsetOf]

theorem offsetOf_le_sum (encs : List (List Nat)) (i : Nat) :
    offsetOf encs i ≤ (encs.map List.length).sum := by
  induction encs generalizing i with
  | nil => simp
  | cons e es ih =>
    cases i with
    | zero => simp
    | succ j =>
      rw [offsetOf_cons_succ]
      simp only [List.map_cons, List.sum_cons]
      exact Nat.add_le_add_left (ih j) _

/-! ### Tile table serialization lemmas -/

@[simp] theorem encEntry_length (e : Nat × Nat × Nat) : (encEntry e).length = entrySize := by
  simp [encEntry, entrySize]

@[simp] theorem mkEntries_length (p : Nat) (l : List (List Nat × Nat)) :
    (mkEntries p l).length = l.length := by
  induction l generalizing p with
  | nil => rfl
  | cons x l ih =>
    obtain ⟨enc, ul⟩ := x
    simp [mkEntries, ih]

theorem table_length (es : List (Nat × Nat × Nat)) :
    ((es.map encEntry).flatten).length = entrySize * es.length := by
  induction es with
  | nil => simp
  | cons e es ih =>
    simp only [List.map_cons, List.flatten_cons, List.length_append, ih, encEntry_length,
      List.length_cons]
    ring

theorem flatten_drop_offset (encs : List (List Nat)) (i : Nat) :
    (encs.flatten).drop (offsetOf encs i) = (encs.drop i).flatten := by
  induction i generalizing encs with
  | zero => simp
  | succ j ih =>
    cases encs with
    | nil => simp
    | cons e es =>
      rw [offsetOf_cons_succ, List.flatten_cons, List.drop_append, ih, List.drop_succ_cons]

/-! ### Compressed stream structure -/

theorem compressedStream_def (c : TileCodec) (input : List Nat) (lv fl : Nat) :
    compressedStream c input lv fl =
      toLE 4 kMagic ++ toLE 8 input.length ++ toLE 8 kTileSize ++
        ((mkEntries 0 ((encsOf c input lv fl).zip
          ((tileSlices input).map List.length))).map encEntry).flatten ++
        (encsOf c input lv fl).flatten := rfl

theorem compressedStream_split (c : TileCodec) (input : List Nat) (lv fl : Nat) :
    compressedStream c input lv fl =
      toLE 4 kMagic ++ toLE 8 input.length ++ toLE 8 kTileSize ++
        (((mkEntries 0 ((encsOf c input lv fl).zip
            ((tileSlices input).map List.length))).map encEntry).flatten ++
          (encsOf c input lv fl).flatten) := by
  rw [compressedStream_def]
  simp [List.append_assoc]

theorem compressedStream_length (c : TileCodec) (input : List Nat) (lv fl : Nat) :
    (compressedStream c input lv fl).length =
      headerSize + entrySize * tileCountOf input.length +
        ((encsOf c input lv fl).map List.length).sum := by
  rw [compressedStream_def]
  simp only [List.length_append, table_length, mkEntries_length, List.length_zip,
    List.length_map, tileSlices_length, encsOf_length, toLE_length, Nat.min_self, headerSize]
  rw [List.length_flatten]

theorem header_fields (m us ts : Nat) (rest : List Nat) :
    readLE (toLE 4 m ++ toLE 8 us ++ toLE 8 ts ++ rest) 0 4 = m % 256 ^ 4 ∧
      readLE (toLE 4 m ++ toLE 8 us ++ toLE 8 ts ++ rest) 4 8 = us % 256 ^ 8 ∧
      readLE (toLE 4 m ++ toLE 8 us ++ toLE 8 ts ++ rest) 12 8 = ts % 256 ^ 8 := by
  refine ⟨?_, ?_, ?_⟩
  · have h : toLE 4 m ++ toLE 8 us ++ toLE 8 ts ++ rest =
        toLE 4 m ++ (toLE 8 us ++ (toLE 8 ts ++ rest)) := by
      simp [List.append_assoc]
    rw [h, readLE_toLE]
  · have h : toLE 4 m ++ toLE 8 us ++ toLE 8 ts ++ rest =
        toLE 4 m ++ (toLE 8 us ++ (toLE 8 ts ++ rest)) := by
      simp [List.append_assoc]
    have ha := readLE_append (toLE 4 m) (toLE 8 us ++ (toLE 8 ts ++ rest)) 0 8
    simp only [toLE_length, Nat.add_zero] at ha
    rw [h, ha, readLE_toLE]
  · have h : toLE 4 m ++ toLE 8 us ++ toLE 8 ts ++ rest =
        (toLE 4 m ++ toLE 8 us) ++ (toLE 8 ts ++ rest) := by
      simp [List.append_assoc]
    have ha := readLE_append (toLE 4 m ++ toLE 8 us) (toLE 8 ts ++ rest) 0 8
    simp only [List.length_append, toLE_length, Nat.add_zero] at ha
    rw [h, ha, readLE_toLE]

theorem parse_compressedStream (c : TileCodec) (input : List Nat) (lv fl : Nat)
    (hus : input.length < 256 ^ 8) :
    parse_header (compressedStream c input lv fl) = .ok ⟨input.length⟩ := by
  have hsplit := compressedStream_split c input lv fl
  have hf := header_fields kMagic input.length kTileSize
    (((mkEntries 0 ((encsOf c input lv fl).zip
        ((tileSlices input).map List.length))).map encEntry).flatten ++
      (encsOf c input lv fl).flatten)
  rw [← hsplit] at hf
  obtain ⟨hm, hu, ht⟩ := hf
  have hm2 : readLE (compressedStream c input lv fl) 0 4 = kMagic := by
    rw [hm, Nat.mod_eq_of_lt (by norm_num [kMagic])]
  have hu2 : readLE (compressedStream c input lv fl) 4 8 = input.length := by
    rw [hu, Nat.mod_eq_of_lt hus]
  have ht2 : readLE (compressedStream c input lv fl) 12 8 = kTileSize := by
    rw [ht, Nat.mod_eq_of_lt (by norm_num [kTileSize])]
  have hlen := compressedStream_length c input lv fl
  unfold parse_header
  rw [hm2, hu2, ht2]
  rw [if_neg (by simp only [headerSize] at hlen ⊢; omega), if_neg (by simp), if_neg (by simp),
    if_neg (by omega)]

theorem readEntry_of_drop (s : List Nat) (i : Nat) (e : Nat × Nat × Nat) (rest : List Nat)
    (h : s.drop (headerSize + entrySize * i) = encEntry e ++ rest) :
    readEntry s i = (e.1 % 256 ^ 8, e.2.1 % 256 ^ 8, e.2.2 % 256 ^ 8) := by
  have h1 : readLE s (headerSize + entrySize * i) 8 = e.1 % 256 ^ 8 := by
    simp only [readLE]
    rw [h, show encEntry e ++ rest = toLE 8 e.1 ++ (toLE 8 e.2.1 ++ (toLE 8 e.2.2 ++ rest)) by
      simp [encEntry, List.append_assoc]]
    rw [List.take_left' (toLE_length 8 e.1), fromLE_toLE]
  have h2 : readLE s (headerSize + entrySize * i + 8) 8 = e.2.1 % 256 ^ 8 := by
    simp only [readLE]
    rw [← List.drop_drop, h, show encEntry e ++ rest =
      toLE 8 e.1 ++ (toLE 8 e.2.1 ++ (toLE 8 e.2.2 ++ rest)) by simp [encEntry, List.append_assoc]]
    rw [List.drop_left' (toLE_length 8 e.1), List.take_left' (toLE_length 8 e.2.1), fromLE_toLE]
  have h3 : readLE s (headerSize + entrySize * i + 16) 8 = e.2.2 % 256 ^ 8 := by
    simp only [readLE]
    rw [← List.drop_drop, h, show encEntry e ++ rest =
      (toLE 8 e.1 ++ toLE 8 e.2.1) ++ (toLE 8 e.2.2 ++ rest) by simp [encEntry, List.append_assoc]]
    rw [List.drop_left' (by simp), List.take_left' (toLE_length 8 e.2.2), fromLE_toLE]
  simp only [readEntry, h1, h2, h3]

theorem mkEntries_table_drop (i : Nat) :
    ∀ (encs : List (List Nat)) (uls : List Nat) (p : Nat), i < encs.length →
      encs.length = uls.length →
      (((mkEntries p (encs.zip uls)).map encEntry).flatten).drop (entrySize * i) =
        encEntry (p + offsetOf encs i, (encs.getD i []).length, uls.getD i 0) ++
          ((mkEntries (p + offsetOf encs (i + 1))
            ((encs.drop (i + 1)).zip (uls.drop (i + 1)))).map encEntry).flatten := by
  induction i with
  | zero =>
    intro encs uls p hi hlen
    match encs, uls with
    | [], _ => simp at hi
    | e :: es, [] => simp at hlen
    | e :: es, u :: us' =>
      rw [show (e :: es).zip (u :: us') = (e, u) :: es.zip us' from rfl]
      rw [show mkEntries p ((e, u) :: es.zip us') =
        (p, e.length, u) :: mkEntries (p + e.length) (es.zip us') from rfl]
      rw [List.map_cons, List.flatten_cons, Nat.mul_zero, List.drop_zero]
      rw [show offsetOf (e :: es) 1 = e.length from by
        rw [show (1 : Nat) = 0 + 1 from rfl, offsetOf_cons_succ, offsetOf_zero, Nat.add_zero]]
      simp only [offsetOf_zero, Nat.add_zero, List.getD_cons_zero, List.drop_succ_cons,
        List.drop_zero]
  | succ j ih =>
    intro encs uls p hi hlen
    match encs, uls with
    | [], _ => simp at hi
    | e :: es, [] => simp at hlen
    | e :: es, u :: us' =>
      rw [show (e :: es).zip (u :: us') = (e, u) :: es.zip us' from rfl]
      rw [show mkEntries p ((e, u) :: es.zip us') =
        (p, e.length, u) :: mkEntries (p + e.length) (es.zip us') from rfl]
      rw [List.map_cons, List.flatten_cons]
      rw [show entrySize * (j + 1) = (encEntry (p, e.length, u)).length + entrySize * j by
        rw [encEntry_length]; ring]
      rw [List.drop_append]
      rw [ih es us' (p + e.length) (by simp only [List.length_cons] at hi; omega)
        (by simp only [List.length_cons] at hlen; omega)]
      simp only [offsetOf_cons_succ, List.getD_cons_succ, List.drop_succ_cons, Nat.add_assoc]

theorem uls_getD (input : List Nat) {i : Nat} (h : i < tileCountOf input.length) :
    ((tileSlices input).map List.length).getD i 0 = (tileOf input i).length := by
  rw [List.getD_eq_getElem?_getD, List.getElem?_map, tileSlices_eq, List.getElem?_map,
    List.getElem?_range h]
  rfl

theorem compressedStream_readEntry (c : TileCodec) (input : List Nat) (lv fl i : Nat)
    (hi : i < tileCountOf input.length) :
    readEntry (compressedStream c input lv fl) i =
      (offsetOf (encsOf c input lv fl) i % 256 ^ 8,
       (c.encode lv fl (tileOf input i)).length % 256 ^ 8,
       (tileOf input i).length % 256 ^ 8) := by
  have hi' : i < (encsOf c input lv fl).length := by simpa using hi
  have hlen : (encsOf c input lv fl).length = ((tileSlices input).map List.length).length := by
    simp
  have htab := mkEntries_table_drop i (encsOf c input lv fl)
    ((tileSlices input).map List.length) 0 hi' hlen
  have hdrop : (compressedStream c input lv fl).drop (headerSize + entrySize * i) =
      encEntry (0 + offsetOf (encsOf c input lv fl) i,
        ((encsOf c input lv fl).getD i []).length,
        ((tileSlices input).map List.length).getD i 0) ++
        ((((mkEntries (0 + offsetOf (encsOf c input lv fl) (i + 1))
            (((encsOf c input lv fl).drop (i + 1)).zip
              (((tileSlices input).map List.length).drop (i + 1)))).map encEntry).flatten) ++
          (encsOf c input lv fl).flatten) := by
    rw [compressedStream_split]
    rw [show headerSize + entrySize * i =
        (toLE 4 kMagic ++ toLE 8 input.length ++ toLE 8 kTileSize).length + entrySize * i by
      simp [headerSize]]
    rw [List.drop_append]
    rw [List.drop_append_of_le_length (by
      rw [table_length]
      simp only [mkEntries_length, List.length_zip, List.length_map, tileSlices_length,
        encsOf_length, Nat.min_self]
      exact Nat.mul_le_mul_left _ (Nat.le_of_lt hi))]
    rw [htab, List.append_assoc]
  rw [readEntry_of_drop _ i _ _ hdrop]
  simp only [Nat.zero_add, uls_getD input hi, encsOf_getD c input lv fl hi]

theorem compressedStream_data (c : TileCodec) (input : List Nat) (lv fl i : Nat)
    (hi : i < tileCountOf input.length) :
    ((compressedStream c input lv fl).drop
        (tileDataStart (tileCountOf input.length) + offsetOf (encsOf c input lv fl) i)).take
      (c.encode lv fl (tileOf input i)).length = c.encode lv fl (tileOf input i) := by
  have hi' : i < (encsOf c input lv fl).length := by simpa using hi
  rw [compressedStream_def]
  rw [show tileDataStart (tileCountOf input.length) + offsetOf (encsOf c input lv fl) i =
      (toLE 4 kMagic ++ toLE 8 input.length ++ toLE 8 kTileSize ++
        ((mkEntries 0 ((encsOf c input lv fl).zip
          ((tileSlices input).map List.length))).map encEntry).flatten).length +
        offsetOf (encsOf c input lv fl) i by
    simp only [List.length_append, toLE_length, table_length, mkEntries_length,
      List.length_zip, List.length_map, tileSlices_length, encsOf_length, Nat.min_self,
      tileDataStart, headerSize, entrySize]]
  rw [List.drop_append, flatten_drop_offset]
  rw [List.drop_eq_getElem_cons hi', List.flatten_cons]
  have hgd : (encsOf c input lv fl)[i] = c.encode lv fl (tileOf input i) := by
    rw [show (encsOf c input lv fl)[i] = (encsOf c input lv fl).getD i [] from by
      rw [List.getD_eq_getElem?_getD, List.getElem?_eq_getElem hi']
      rfl]
    rw [encsOf_getD c input lv fl hi]
  rw [hgd, List.take_left' rfl]

theorem decodeTile_compressedStream (c : TileCodec) (hed : EncodeDecode c)
    (input : List Nat) (lv fl i : Nat) (hi : i < tileCountOf input.length)
    (hoff : offsetOf (encsOf c input lv fl) i < 256 ^ 8)
    (hclen : (c.encode lv fl (tileOf input i)).length < 256 ^ 8) :
    decodeTile c (compressedStream c input lv fl) (tileCountOf input.length) i =
      some (tileOf input i) := by
  have htl : (tileOf input i).length % 256 ^ 8 = (tileOf input i).length :=
    Nat.mod_eq_of_lt (lt_of_le_of_lt (tileOf_length_le input i) (by norm_num [kTileSize]))
  simp only [decodeTile, compressedStream_readEntry c input lv fl i hi,
    Nat.mod_eq_of_lt hoff, Nat.mod_eq_of_lt hclen, htl]
  rw [compressedStream_data c input lv fl i hi]
  exact hed lv fl (tileOf input i)

/-! ### Compression success -/

theorem compress_check_false (c : TileCodec) (heb : EncodeBound c) (tiles : List (List Nat))
    (lv fl : Nat) :
    ((tiles.zip (tiles.map (c.encode lv fl))).any
      (fun p => decide (c.bound p.1.length < p.2.length))) = false := by
  induction tiles with
  | nil => rfl
  | cons t ts ih =>
    simp only [List.map_cons, List.zip_cons_cons, List.any_cons, ih, Bool.or_false,
      decide_eq_false_iff_not, Nat.not_lt]
    exact heb lv fl t

theorem mem_tileSlices_length_le {input : List Nat} {t : List Nat}
    (h : t ∈ tileSlices input) : t.length ≤ kTileSize := by
  rw [tileSlices_eq] at h
  obtain ⟨i, _, rfl⟩ := List.mem_map.mp h
  exact tileOf_length_le input i

theorem encs_sum_le (c : TileCodec) (input : List Nat) (lv fl : Nat) (heb : EncodeBound c)
    (hbm : BoundMono c) :
    ((encsOf c input lv fl).map List.length).sum ≤
      tileCountOf input.length * c.bound kTileSize := by
  have h := sum_le_length_mul ((encsOf c input lv fl).map List.length) (c.bound kTileSize) ?_
  · simpa using h
  · intro x hx
    obtain ⟨enc, henc, rfl⟩ := List.mem_map.mp hx
    obtain ⟨t, ht, rfl⟩ := List.mem_map.mp henc
    exact Nat.le_trans (heb lv fl t) (hbm _ _ (mem_tileSlices_length_le ht))

theorem compress_succeeds (c : TileCodec) (heb : EncodeBound c) (hbm : BoundMono c)
    (cap : Nat) (input : List Nat) (lv fl : Nat) (hfl : fl < 2)
    (hcap : gdeflate_get_compress_bound c input.length ≤ cap) :
    GDeflate.Compress c cap input lv fl = .ok (compressedStream c input lv fl) := by
  unfold GDeflate.Compress
  rw [if_neg (by omega)]
  rw [if_neg (by
    rw [compress_check_false c heb (tileSlices input) lv fl]
    simp)]
  rw [if_neg (by
    have hlen := compressedStream_length c input lv fl
    have hsum := encs_sum_le c input lv fl heb hbm
    simp only [gdeflate_get_compress_bound, Nat.mul_add, headerSize, entrySize] at hcap hlen ⊢
    omega)]

theorem compress_ok_inv (c : TileCodec) (cap : Nat) (input : List Nat) (lv fl : Nat)
    (s : List Nat) (h : GDeflate.Compress c cap input lv fl = .ok s) :
    s = compressedStream c input lv fl := by
  unfold GDeflate.Compress at h
  split at h
  · exact absurd h (by simp)
  · split at h
    · exact absurd h (by simp)
    · split at h
      · exact absurd h (by simp)
      · exact (Except.ok.injEq _ _ ▸ h).symm

/-! ### Tile fold machinery -/

theorem stepTile_true (c : TileCodec) (input : List Nat) (tc : Nat) (buf : List Nat)
    (i : Nat) (blk : List Nat) (h : decodeTile c input tc i = some blk) :
    stepTile c input tc (true, buf) i = (true, writeAt buf (kTileSize * i) blk) := by
  simp [stepTile, h]

theorem stepTile_fst_false (c : TileCodec) (input : List Nat) (tc : Nat)
    (acc : Bool × List Nat) (i : Nat) (h : acc.1 = false) :
    stepTile c input tc acc i = acc := by
  simp [stepTile, h]

theorem foldl_range_stepTile (c : TileCodec) (s b out : List Nat) (tc : Nat)
    (htc : tc = tileCountOf b.length)
    (hdec : ∀ i, i < tc → decodeTile c s tc i = some (tileOf b i))
    (hout : out.length = b.length) :
    ∀ m, m ≤ tc → (List.range m).foldl (stepTile c s tc) (true, out) =
      (true, b.take (kTileSize * m) ++ out.drop (kTileSize * m)) := by
  intro m
  induction m with
  | zero => simp
  | succ n ih =>
    intro hm
    have hn : n < tileCountOf b.length := htc ▸ (by omega)
    have h1 : kTileSize * n ≤ b.length := mul_le_of_lt_tileCountOf hn
    rw [List.range_succ, List.foldl_append, ih (by omega), List.foldl_cons, List.foldl_nil]
    rw [stepTile_true c s tc _ n (tileOf b n) (hdec n (by omega))]
    have htake_len : (b.take (kTileSize * n)).length = kTileSize * n := by
      simp [List.length_take]
      omega
    have hw := writeAt_append (b.take (kTileSize * n)) (out.drop (kTileSize * n)) 0 (tileOf b n)
    rw [htake_len, Nat.add_zero] at hw
    rw [hw, writeAt_zero]
    have hmin : (tileOf b n).length = min kTileSize (b.length - kTileSize * n) := by
      simp [tileOf]
    have hblk_le : (tileOf b n).length ≤ (out.drop (kTileSize * n)).length := by
      rw [hmin, List.length_drop, hout]
      omega
    rw [List.take_of_length_le hblk_le]
    rw [← List.append_assoc]
    rw [show b.take (kTileSize * n) ++ tileOf b n = b.take (kTileSize * (n + 1)) from by
      rw [Nat.mul_succ, List.take_add]
      rfl]
    rw [show (out.drop (kTileSize * n)).drop (tileOf b n).length =
        out.drop (kTileSize * (n + 1)) from by
      rw [List.drop_drop]
      by_cases hc : kTileSize ≤ b.length - kTileSize * n
      · rw [hmin, Nat.min_eq_left hc, ← Nat.mul_succ]
      · rw [hmin, Nat.min_eq_right (by omega)]
        rw [List.drop_eq_nil_of_le (by rw [hout]; omega),
          List.drop_eq_nil_of_le (by rw [hout, Nat.mul_succ]; omega)]]

theorem stepTile_comm (c : TileCodec) (input : List Nat) (tc : Nat)
    (hdec : ∀ i, i < tc → ∃ blk, decodeTile c input tc i = some blk ∧ blk.length ≤ kTileSize)
    {x y : Nat} (hx : x < tc) (hy : y < tc) (z : Bool × List Nat) :
    stepTile c input tc (stepTile c input tc z x) y =
      stepTile c input tc (stepTile c input tc z y) x := by
  obtain ⟨bx, hbx, hbxl⟩ := hdec x hx
  obtain ⟨by', hby, hbyl⟩ := hdec y hy
  obtain ⟨flag, buf⟩ := z
  cases flag with
  | false =>
    rw [stepTile_fst_false c input tc (false, buf) x rfl,
      stepTile_fst_false c input tc (false, buf) y rfl,
      stepTile_fst_false c input tc (false, buf) x rfl]
  | true =>
    rw [stepTile_true c input tc buf x bx hbx, stepTile_true c input tc buf y by' hby,
      stepTile_true c input tc _ y by' hby, stepTile_true c input tc _ x bx hbx]
    rcases Nat.lt_trichotomy x y with hlt | heq | hgt
    · have hcond : kTileSize * x + bx.length ≤ kTileSize * y := by
        have := Nat.mul_le_mul_left kTileSize hlt
        rw [Nat.mul_succ] at this
        omega
      rw [(writeAt_comm buf (kTileSize * x) (kTileSize * y) bx by' hcond).symm]
    · subst heq
      rw [hbx] at hby
      cases hby
      rfl
    · have hcond : kTileSize * y + by'.length ≤ kTileSize * x := by
        have := Nat.mul_le_mul_left kTileSize hgt
        rw [Nat.mul_succ] at this
        omega
      rw [writeAt_comm buf (kTileSize * y) (kTileSize * x) by' bx hcond]

/-! ### Schedule lemmas -/

theorem mem_schedule {w tc x : Nat} (h : x ∈ schedule w tc) : x < tc := by
  unfold schedule at h
  split at h
  · simpa using h
  · rw [List.mem_flatten] at h
    obtain ⟨l, hl, hx⟩ := h
    obtain ⟨k, _, rfl⟩ := List.mem_map.mp hl
    have := (List.mem_filter.mp hx).1
    simpa using this

theorem sum_if_zero (l : List Nat) (m C : Nat) (h : ∀ k ∈ l, m ≠ k) :
    (l.map fun k => if m = k then C else 0).sum = 0 := by
  induction l with
  | nil => rfl
  | cons a l ih =>
    simp only [List.map_cons, List.sum_cons]
    rw [if_neg (h a (by simp)), ih fun k hk => h k (by simp [hk])]

theorem sum_if_single (w m C : Nat) (h : m < w) :
    ((List.range w).map fun k => if m = k then C else 0).sum = C := by
  induction w with
  | zero => omega
  | succ v ih =>
    rw [List.range_succ, List.map_append, List.sum_append]
    by_cases hm : m = v
    · subst hm
      rw [sum_if_zero _ _ _ fun k hk => by
        have := List.mem_range.mp hk
        omega]
      simp
    · rw [ih (by omega)]
      simp [hm]

theorem schedule_perm (w tc : Nat) : (schedule w tc).Perm (List.range tc) := by
  unfold schedule
  split
  · exact List.Perm.refl _
  · rename_i hw
    rw [List.perm_iff_count]
    intro a
    rw [List.count_flatten, List.map_map]
    have hc : ∀ k ∈ List.range w,
        (List.count a ∘ fun k => (List.range tc).filter fun i => i % w == k) k =
          if a % w = k then List.count a (List.range tc) else 0 := by
      intro k _
      simp only [Function.comp]
      by_cases hak : a % w = k
      · rw [if_pos hak, List.count_filter (by simp [hak])]
      · rw [if_neg hak, List.count_eq_zero]
        intro hmem
        exact hak (by simpa using (List.mem_filter.mp hmem).2)
    rw [List.map_congr_left hc, sum_if_single w (a % w) _ (Nat.mod_lt a (by omega))]

/-! ### Decompression -/

theorem Decompress_error (c : TileCodec) (out input : List Nat) (w : Nat) (e : StreamErr)
    (hp : parse_header input = .error e) :
    GDeflate.Decompress c out input w = (false, out) := by
  unfold GDeflate.Decompress
  rw [hp]

theorem Decompress_ok (c : TileCodec) (out input : List Nat) (w : Nat) (h : StreamHeader)
    (hp : parse_header input = .ok h) :
    GDeflate.Decompress c out input w =
      if out.length < h.uncompressedSize then (false, out)
      else (schedule w (tileCountOf h.uncompressedSize)).foldl
        (stepTile c input (tileCountOf h.uncompressedSize)) (true, out) := by
  unfold GDeflate.Decompress
  rw [hp]

theorem decompress_compressedStream (c : TileCodec) (hed : EncodeDecode c)
    (heb : EncodeBound c) (hbm : BoundMono c) (b : List Nat) (hb : b.length < 256 ^ 8)
    (hB : gdeflate_get_compress_bound c b.length < 256 ^ 8)
    (lv fl w : Nat) (out : List Nat) (hout : out.length = b.length) :
    GDeflate.Decompress c out (compressedStream c b lv fl) w = (true, b) := by
  have hparse := parse_compressedStream c b lv fl hb
  rw [Decompress_ok c out _ w _ hparse]
  rw [show (⟨b.length⟩ : StreamHeader).uncompressedSize = b.length from rfl]
  rw [if_neg (by omega)]
  have hdec : ∀ i, i < tileCountOf b.length →
      decodeTile c (compressedStream c b lv fl) (tileCountOf b.length) i =
        some (tileOf b i) := by
    intro i hi
    apply decodeTile_compressedStream c hed b lv fl i hi
    · have h1 := offsetOf_le_sum (encsOf c b lv fl) i
      have h2 := encs_sum_le c b lv fl heb hbm
      have h3 : tileCountOf b.length * c.bound kTileSize ≤
          gdeflate_get_compress_bound c b.length := by
        simp only [gdeflate_get_compress_bound, Nat.mul_add]
        omega
      omega
    · have h1 := heb lv fl (tileOf b i)
      have h2 := hbm _ _ (tileOf_length_le b i)
      have h4 := Nat.le_mul_of_pos_left (c.bound kTileSize) (tileCountOf_pos b.length)
      have h3 : tileCountOf b.length * c.bound kTileSize ≤
          gdeflate_get_compress_bound c b.length := by
        simp only [gdeflate_get_compress_bound, Nat.mul_add]
        omega
      omega
  have hdec2 : ∀ i, i < tileCountOf b.length → ∃ blk,
      decodeTile c (compressedStream c b lv fl) (tileCountOf b.length) i = some blk ∧
        blk.length ≤ kTileSize :=
    fun i hi => ⟨tileOf b i, hdec i hi, tileOf_length_le b i⟩
  rw [List.Perm.foldl_eq' (schedule_perm w (tileCountOf b.length))
    (fun x hx y hy z => stepTile_comm c _ _ hdec2 (mem_schedule hx) (mem_schedule hy) z) _]
  rw [foldl_range_stepTile c _ b out (tileCountOf b.length) rfl hdec hout
    (tileCountOf b.length) (Nat.le_refl _)]
  rw [List.take_of_length_le (le_mul_tileCountOf b.length)]
  rw [List.drop_eq_nil_of_le (by rw [hout]; exact le_mul_tileCountOf b.length)]
  rw [List.append_nil]

/-! ### Store codec laws -/

theorem storeCodec_encodeDecode : EncodeDecode storeCodec := by
  intro lv fl b
  simp [storeCodec]

theorem storeCodec_decodeLen : DecodeLen storeCodec := by
  intro s n b h
  unfold storeCodec at h
  simp only at h
  split at h
  · cases h
    assumption
  · exact absurd h (by simp)

theorem storeCodec_encodeBound : EncodeBound storeCodec := fun _ _ _ => Nat.le_refl _

theorem storeCodec_boundMono : BoundMono storeCodec := fun _ _ h => h

/-! ### Claim theorems -/

/-- C1: for every byte buffer `b`, compressing `b` with `gdeflate_compress`
into a sufficiently large output buffer and then decompressing the resulting
stream with `gdeflate_decompress` into a buffer of `len(b)` bytes succeeds and
reproduces exactly `b` (for any codec satisfying the TileCodec contract, any
recognized flags, any worker count, and sizes representable in 64 bits). -/
theorem c1_compress_roundtrip (c : TileCodec) (hed : EncodeDecode c) (heb : EncodeBound c)
    (hbm : BoundMono c) (b : List Nat) (hb : b.length < 256 ^ 8)
    (hB : gdeflate_get_compress_bound c b.length < 256 ^ 8) (cap lv fl w : Nat)
    (hfl : fl < 2) (hcap : gdeflate_get_compress_bound c b.length ≤ cap) (out : List Nat)
    (hout : out.length = b.length) :
    gdeflate_compress c cap b lv fl = .ok (compressedStream c b lv fl) ∧
      gdeflate_decompress c out (compressedStream c b lv fl) w = (true, b) :=
  ⟨compress_succeeds c heb hbm cap b lv fl hfl hcap,
   decompress_compressedStream c hed heb hbm b hb hB lv fl w out hout⟩

theorem c1_witness :
    gdeflate_compress storeCodec 65580 [5, 6] 9 1 =
        .ok (compressedStream storeCodec [5, 6] 9 1) ∧
      gdeflate_decompress storeCodec [0, 0] (compressedStream storeCodec [5, 6] 9 1) 3 =
        (true, [5, 6]) :=
  c1_compress_roundtrip storeCodec storeCodec_encodeDecode storeCodec_encodeBound
    storeCodec_boundMono [5, 6] (by norm_num) (by decide) 65580 9 1 3 (by norm_num)
    (by decide) [0, 0] rfl

/-- C2 counterexample: a 20-byte all-zero buffer is exactly header-sized but
fails header validation (`InvalidFormat`: its magic field is 0, not the
supported tag), yet `gdeflate_get_uncompressed_size` returns `ok = true` —
the wrapper returns `true` unconditionally once the length check passes,
contradicting the claim that `ok = false` exactly when the buffer is short or
the header is invalid. -/
theorem c2_counterexample :
    gdeflate_get_uncompressed_size (List.replicate 20 0) = (0, true) ∧
      parse_header (List.replicate 20 0) = .error .InvalidFormat := by
  exact ⟨rfl, rfl⟩

/-- C2 (amended): `gdeflate_get_uncompressed_size` returns `(0, false)` exactly
when the buffer is shorter than the fixed header size
(`sizeof(GDeflate::TileStream)`); otherwise it returns `ok = true` with the
header's declared uncompressed-size field, performing no magic/consistency
validation. -/
theorem c2_size_probe (input : List Nat) :
    (gdeflate_get_uncompressed_size input = (0, false) ↔ input.length < headerSize) ∧
      (headerSize ≤ input.length →
        gdeflate_get_uncompressed_size input = (TileStream.GetUncompressedSize input, true)) := by
  unfold gdeflate_get_uncompressed_size
  by_cases h : input.length < headerSize
  · rw [if_pos h]
    exact ⟨⟨fun _ => h, fun _ => rfl⟩, fun hle => absurd h (by omega)⟩
  · rw [if_neg h]
    refine ⟨⟨fun heq => absurd (congrArg Prod.snd heq) (by simp), fun hlt => absurd hlt h⟩,
      fun _ => rfl⟩

theorem c2_witness :
    gdeflate_get_uncompressed_size (List.replicate 20 1) =
      (TileStream.GetUncompressedSize (List.replicate 20 1), true) :=
  (c2_size_probe (List.replicate 20 1)).2 (by decide)

/-- C3: `gdeflate_get_compress_bound` is total by construction, and for every
input buffer `b`, a compress call given an output capacity of at least
`gdeflate_get_compress_bound (len b)` never fails with `OutputTooSmall`
(for any codec satisfying the bound contract, any level, any flags). -/
theorem c3_bound_sound (c : TileCodec) (heb : EncodeBound c) (hbm : BoundMono c)
    (b : List Nat) (cap lv fl : Nat) (hcap : gdeflate_get_compress_bound c b.length ≤ cap) :
    gdeflate_compress c cap b lv fl ≠ .error .OutputTooSmall := by
  unfold gdeflate_compress GDeflate.Compress
  by_cases hfl : 2 ≤ fl
  · rw [if_pos hfl]
    simp only [ne_eq, Except.error.injEq]
    decide
  · rw [if_neg hfl]
    rw [if_neg (by rw [compress_check_false c heb (tileSlices b) lv fl]; simp)]
    rw [if_neg (by
      have hlen := compressedStream_length c b lv fl
      have hsum := encs_sum_le c b lv fl heb hbm
      simp only [gdeflate_get_compress_bound, Nat.mul_add, headerSize, entrySize] at hcap hlen ⊢
      omega)]
    simp

theorem c3_witness :
    gdeflate_compress storeCodec 65580 [1, 2] 12 0 ≠ .error .OutputTooSmall :=
  c3_bound_sound storeCodec storeCodec_encodeBound storeCodec_boundMono [1, 2] 65580 12 0
    (by decide)

/-- C4: for every buffer `b` with a 64-bit representable length, applying
`gdeflate_get_uncompressed_size` to the stream produced by a successful
`gdeflate_compress` of `b` returns `ok = true` with declared size `len b`. -/
theorem c4_probe_of_compress (c : TileCodec) (b : List Nat) (hb : b.length < 256 ^ 8)
    (cap lv fl : Nat) (s : List Nat) (hok : gdeflate_compress c cap b lv fl = .ok s) :
    gdeflate_get_uncompressed_size s = (b.length, true) := by
  have hs := compress_ok_inv c cap b lv fl s hok
  subst hs
  have hlen := compressedStream_length c b lv fl
  unfold gdeflate_get_uncompressed_size
  rw [if_neg (by simp only [headerSize] at hlen ⊢; omega)]
  have hsplit := compressedStream_split c b lv fl
  have hf := header_fields kMagic b.length kTileSize
    (((mkEntries 0 ((encsOf c b lv fl).zip ((tileSlices b).map List.length))).map
      encEntry).flatten ++ (encsOf c b lv fl).flatten)
  rw [← hsplit] at hf
  obtain ⟨-, hu, -⟩ := hf
  unfold TileStream.GetUncompressedSize
  rw [hu, Nat.mod_eq_of_lt hb]

theorem c4_witness :
    gdeflate_get_uncompressed_size (compressedStream storeCodec [1, 2, 3] 1 0) = (3, true) :=
  c4_probe_of_compress storeCodec [1, 2, 3] (by norm_num) 70000 1 0 _ rfl

/-- C5: for a fixed valid compressed input (header parses; every tile decodes
to a block no longer than the tile size) and fixed output buffer, the result
of `gdeflate_decompress` is byte-identical for every value of `num_workers`:
the output is deterministic and independent of worker count and completion
order. -/
theorem c5_worker_invariance (c : TileCodec) (input output : List Nat) (hd : StreamHeader)
    (hp : parse_header input = .ok hd)
    (hdec : ∀ i, i < tileCountOf hd.uncompressedSize → ∃ blk,
      decodeTile c input (tileCountOf hd.uncompressedSize) i = some blk ∧
        blk.length ≤ kTileSize)
    (w w' : Nat) :
    gdeflate_decompress c output input w = gdeflate_decompress c output input w' := by
  unfold gdeflate_decompress
  rw [Decompress_ok c output input w hd hp, Decompress_ok c output input w' hd hp]
  by_cases hlt : output.length < hd.uncompressedSize
  · rw [if_pos hlt, if_pos hlt]
  · rw [if_neg hlt, if_neg hlt]
    rw [List.Perm.foldl_eq' (schedule_perm w (tileCountOf hd.uncompressedSize))
      (fun x hx y hy z => stepTile_comm c _ _ hdec (mem_schedule hx) (mem_schedule hy) z) _]
    rw [List.Perm.foldl_eq' (schedule_perm w' (tileCountOf hd.uncompressedSize))
      (fun x hx y hy z => stepTile_comm c _ _ hdec (mem_schedule hx) (mem_schedule hy) z) _]

theorem c5_witness :
    gdeflate_decompress storeCodec [0, 0, 0] (compressedStream storeCodec [3, 1, 4] 1 0) 0 =
      gdeflate_decompress storeCodec [0, 0, 0] (compressedStream storeCodec [3, 1, 4] 1 0) 5 :=
  c5_worker_invariance storeCodec (compressedStream storeCodec [3, 1, 4] 1 0) [0, 0, 0]
    ⟨3⟩ rfl
    (by
      intro i hi
      have h1 : tileCountOf (StreamHeader.uncompressedSize ⟨3⟩) = 1 := by decide
      rw [h1] at hi
      have h0 : i = 0 := by omega
      subst h0
      exact ⟨[3, 1, 4], rfl, by decide⟩)
    0 5

/-- C6: `gdeflate_decompress` checks its preconditions (header of the input
parses; output buffer at least the declared uncompressed size) before any
tile work; on violation it returns `false` with the output buffer completely
unchanged. -/
theorem c6_preconditions (c : TileCodec) (output input : List Nat) (w : Nat)
    (h : (∃ e, parse_header input = .error e) ∨
      ∃ hd, parse_header input = .ok hd ∧ output.length < hd.uncompressedSize) :
    gdeflate_decompress c output input w = (false, output) := by
  unfold gdeflate_decompress
  rcases h with ⟨e, he⟩ | ⟨hd, hok, hlt⟩
  · exact Decompress_error c output input w e he
  · rw [Decompress_ok c output input w hd hok, if_pos hlt]

theorem c6_witness : gdeflate_decompress storeCodec [7] [] 2 = (false, [7]) :=
  c6_preconditions storeCodec [7] [] 2 (Or.inl ⟨.Truncated, rfl⟩)

/-- C7: `gdeflate_get_uncompressed_size` never reads past the header: any two
equal-length inputs agreeing on their first `headerSize` bytes produce the
same `(declared_size, ok)` pair — the result depends only on the header
prefix, not on TileData or the uncompressed size. -/
theorem c7_probe_prefix_only (b1 b2 : List Nat) (hlen : b1.length = b2.length)
    (hpre : b1.take headerSize = b2.take headerSize) :
    gdeflate_get_uncompressed_size b1 = gdeflate_get_uncompressed_size b2 := by
  unfold gdeflate_get_uncompressed_size
  rw [hlen]
  by_cases h : b2.length < headerSize
  · rw [if_pos h, if_pos h]
  · rw [if_neg h, if_neg h]
    unfold TileStream.GetUncompressedSize readLE
    have e : ∀ b : List Nat, (b.drop 4).take 8 = ((b.take headerSize).drop 4).take 8 := by
      intro b
      rw [List.drop_take, List.take_take]
      norm_num [headerSize]
    rw [show (b1.drop 4).take 8 = (b2.drop 4).take 8 from by rw [e b1, e b2, hpre]]

theorem c7_witness :
    gdeflate_get_uncompressed_size (List.replicate 20 1 ++ [5]) =
      gdeflate_get_uncompressed_size (List.replicate 20 1 ++ [9]) :=
  c7_probe_prefix_only _ _ (by decide) (by decide)

/-- C8: truncating a valid compressed stream to fewer bytes than the fixed
header size makes `gdeflate_get_uncompressed_size` return `(0, false)`, makes
the header parse fail with `Truncated`, and makes `gdeflate_decompress` fail
with the output buffer unchanged. -/
theorem c8_truncation (c : TileCodec) (s : List Nat) (hd : StreamHeader)
    (hv : parse_header s = .ok hd) (k : Nat) (hk : k < headerSize) (out : List Nat)
    (w : Nat) :
    gdeflate_get_uncompressed_size (s.take k) = (0, false) ∧
      parse_header (s.take k) = .error .Truncated ∧
      gdeflate_decompress c out (s.take k) w = (false, out) := by
  have hlen : (s.take k).length < headerSize := by
    rw [List.length_take]
    have := Nat.min_le_left k s.length
    omega
  have hp : parse_header (s.take k) = .error .Truncated := by
    unfold parse_header
    rw [if_pos hlen]
  refine ⟨?_, hp, ?_⟩
  · unfold gdeflate_get_uncompressed_size
    rw [if_pos hlen]
  · exact Decompress_error c out _ w _ hp

theorem c8_witness :
    gdeflate_get_uncompressed_size ((compressedStream storeCodec [] 1 0).take 5) =
        (0, false) ∧
      parse_header ((compressedStream storeCodec [] 1 0).take 5) = .error .Truncated ∧
      gdeflate_decompress storeCodec [] ((compressedStream storeCodec [] 1 0).take 5) 1 =
        (false, []) :=
  c8_truncation storeCodec (compressedStream storeCodec [] 1 0) ⟨0⟩ rfl 5 (by decide) [] 1

/-- C9: compressing the empty buffer succeeds and emits a valid stream whose
header declares an uncompressed size yielding `tile_count = 1` with
`uncompressed_length[0] = 0`, and `gdeflate_decompress` of that stream into a
zero-length output buffer succeeds. -/
theorem c9_empty_input :
    gdeflate_compress storeCodec 100 [] 1 0 = .ok (compressedStream storeCodec [] 1 0) ∧
      tileCountOf (gdeflate_get_uncompressed_size (compressedStream storeCodec [] 1 0)).1 =
        1 ∧
      (readEntry (compressedStream storeCodec [] 1 0) 0).2.2 = 0 ∧
      gdeflate_decompress storeCodec [] (compressedStream storeCodec [] 1 0) 1 =
        (true, []) :=
  ⟨rfl, rfl, rfl, rfl⟩

/-- C10: the wrapper adds no validation, clamping, or argument transformation:
`gdeflate_decompress` returns exactly `GDeflate::Decompress` on the same
arguments and `gdeflate_compress` returns exactly `GDeflate::Compress` on the
same arguments. -/
theorem c10_wrapper_forwards (c : TileCodec) (out input : List Nat) (w cap lv fl : Nat) :
    gdeflate_decompress c out input w = GDeflate.Decompress c out input w ∧
      gdeflate_compress c cap input lv fl = GDeflate.Compress c cap input lv fl :=
  ⟨rfl, rfl⟩
